import Mathlib

/-
Verification of the FRI implementation (prime-field arithmetic, polynomial
folding, Fiat-Shamir transcript, and the FRI commit/verify phases).

The Rust sources are shallowly embedded: i128 values become Int, Vec becomes
List, u8 bytes become Nat (reduced mod 256 where they are consumed), and code
that can panic (mismatched-modulus addition, out-of-range indexing, division
by zero, transcript reads past the end) returns Option. The external SHA-256
hash and the external Merkle-tree collaborator are parameters: a hash function
from the serialized string to a digest byte list, a root builder from leaves
to a digest, and a proof validator.
-/

namespace FriImpl

/-- Embedding of the modulo crate used by the source: a.modulo(b) is
((a % b) + b) % b with Rust's truncated remainder. -/
def modulo (a b : Int) : Int := ((a.tmod b) + b).tmod b

/-- Field struct from finite_field.rs: a (prime) modulus. -/
structure Field where
  prime : Int
deriving DecidableEq

/-- FieldElement struct from finite_field.rs: a numeric value tagged with its
field. -/
structure FieldElement where
  num : Int
  field : Field
deriving DecidableEq

/-- FieldElement::new reduces the value with the modulo operator. -/
def FieldElement.new (num : Int) (field : Field) : FieldElement :=
  { num := modulo num field.prime, field := field }

/-- Big-endian accumulation of a byte list into a natural number; each entry
is reduced mod 256 because the source bytes are u8. -/
def beNat (bytes : List Nat) : Nat :=
  bytes.foldl (fun acc b => acc * 256 + b % 256) 0

/-- Two's-complement reading of an 8-byte big-endian pattern, as done by
i64::from_be_bytes in the source. -/
def toSigned64 (u : Nat) : Int :=
  if u < 2 ^ 63 then (u : Int) else (u : Int) - 2 ^ 64

/-- FieldElement::from_bytes: copy the FIRST 8 bytes of the input, read them
as a big-endian signed 64-bit integer, and reduce with modulo. The source
panics when fewer than 8 bytes are given (copy_from_slice), hence Option. -/
def FieldElement.from_bytes (bytes : List Nat) (field : Field) : Option FieldElement :=
  if 8 ≤ bytes.length then
    some { num := modulo (toSigned64 (beNat (bytes.take 8))) field.prime, field := field }
  else
    none

/-- Loop body of extended_euclidean_algorithm from finite_field.rs. The Rust
while loop runs until r = 0; the fuel argument only bounds the iteration count
and is chosen large enough below that the zero-fuel branch is never taken
(the absolute value of r strictly decreases each round). Rust / and % on
i128 are truncated division, i.e. Int.tdiv / Int.tmod. -/
def eeaGo : Nat → Int → Int → Int → Int → Int → Int → Int × Int × Int
  | 0, old_r, _, old_s, _, old_t, _ => (old_r, old_s, old_t)
  | fuel + 1, old_r, r, old_s, s, old_t, t =>
    if r = 0 then (old_r, old_s, old_t)
    else
      let quotient := old_r.tdiv r
      eeaGo fuel r (old_r - quotient * r) s (old_s - quotient * s) t (old_t - quotient * t)

/-- extended_euclidean_algorithm(a, b) returns (old_r, old_s, old_t), i.e. the
gcd FIRST and then the two Bezout coefficients. -/
def extended_euclidean_algorithm (a b : Int) : Int × Int × Int :=
  eeaGo (b.natAbs + 1) a b 1 0 0 1

/-- Field::zero. -/
def Field.zero (f : Field) : FieldElement := { num := 0, field := f }

/-- Field::one. -/
def Field.one (f : Field) : FieldElement := { num := 1, field := f }

/-- Field::multiply: no modulus check; reduces with the receiver's prime. -/
def Field.multiply (f : Field) (left right : FieldElement) : FieldElement :=
  { num := modulo (left.num * right.num) f.prime, field := f }

/-- Field::add: no modulus check; reduces with the receiver's prime. -/
def Field.add (f : Field) (left right : FieldElement) : FieldElement :=
  { num := modulo (left.num + right.num) f.prime, field := f }

/-- Field::subtract: (prime + left - right) reduced with the receiver's
prime; no modulus check. -/
def Field.subtract (f : Field) (left right : FieldElement) : FieldElement :=
  { num := modulo (f.prime + left.num - right.num) f.prime, field := f }

/-- Field::divide: asserts the divisor is non-zero (Option models the assert)
and then multiplies the left value by the FIRST component of the extended
Euclidean triple for (right.num, prime) - which is the gcd, not a Bezout
coefficient - reducing with modulo. -/
def Field.divide (f : Field) (left right : FieldElement) : Option FieldElement :=
  if right.num = 0 then none
  else
    let a := (extended_euclidean_algorithm right.num f.prime).1
    some { num := modulo (left.num * a) f.prime, field := f }

/-- Field::inverse: the FIRST component of the extended Euclidean triple for
(operand.num, prime), stored without further reduction. -/
def Field.inverse (f : Field) (operand : FieldElement) : FieldElement :=
  { num := (extended_euclidean_algorithm operand.num f.prime).1, field := f }

/-- FieldElement::inverse delegates to the element's field. -/
def FieldElement.inverse (e : FieldElement) : FieldElement :=
  e.field.inverse e

/-- The PartialEq impl for FieldElement compares ONLY the numeric values. -/
def feEq (a b : FieldElement) : Bool := a.num == b.num

/-- The Add impl for FieldElement: the only operator that checks that both
operands live in the same field; it panics (none) on mismatch, otherwise
reduces the sum with the left operand's prime. -/
def feAdd (a b : FieldElement) : Option FieldElement :=
  if a.field.prime = b.field.prime then
    some { num := modulo (a.num + b.num) a.field.prime, field := a.field }
  else
    none

/-- The Mul impl: delegates to the LEFT operand's field, with no check. -/
def feMul (a b : FieldElement) : FieldElement := a.field.multiply a b

/-- The Sub impl: delegates to the LEFT operand's field, with no check. -/
def feSub (a b : FieldElement) : FieldElement := a.field.subtract a b

/-- The Div impl: delegates to the LEFT operand's field, with no check other
than divide's own zero test. -/
def feDiv (a b : FieldElement) : Option FieldElement := a.field.divide a b

/-- Polynomial struct from polynomial.rs: ascending coefficients. -/
structure Polynomial where
  coeffs : List FieldElement
deriving DecidableEq

/-- Sequencing of a list of Options: some of the list of values when every
entry is some, none otherwise (the first none models the first panic). -/
def optionList {α : Type} : List (Option α) → Option (List α)
  | [] => some []
  | o :: os => do
    let a ← o
    let as ← optionList os
    some (a :: as)

/-- Loop body of Polynomial::evaluate: value accumulates value + c * xi and
xi accumulates xi * x, over the coefficients in ascending order. The + is the
checked FieldElement addition, so a coefficient from a different field than
the accumulator makes the source panic (none here). -/
def evalGo (x : FieldElement) : List FieldElement → FieldElement → FieldElement → Option FieldElement
  | [], value, _ => some value
  | c :: rest, value, xi => do
    let value' ← feAdd value (feMul c xi)
    evalGo x rest value' (feMul xi x)

/-- Polynomial::evaluate starting from value = zero and xi = one of the
evaluation point's field. -/
def Polynomial.evaluate (p : Polynomial) (x : FieldElement) : Option FieldElement :=
  evalGo x p.coeffs (x.field.zero) (x.field.one)

/-- Polynomial::evaluate_domain: evaluate at every domain point in order. -/
def Polynomial.evaluate_domain (p : Polynomial) (domain : List FieldElement) : Option (List FieldElement) :=
  optionList (domain.map (fun x => p.evaluate x))

/-- The iterator coeffs.iter().step_by(2): elements at even indices. -/
def evens {α : Type} : List α → List α
  | [] => []
  | [a] => [a]
  | a :: _ :: rest => a :: evens rest

/-- The iterator coeffs.iter().skip(1).step_by(2): elements at odd indices. -/
def odds {α : Type} : List α → List α
  | [] => []
  | [_] => []
  | _ :: b :: rest => b :: odds rest

/-- fold_polynomial from polynomial.rs: split into even- and odd-indexed
coefficients, multiply the odd ones by beta (the Mul impl, using each odd
coefficient's own field), then zip the two halves with the checked addition.
The zip stops at the shorter half; any mismatched-modulus pair panics. -/
def fold_polynomial (poly : Polynomial) (beta : FieldElement) : Option Polynomial := do
  let even := evens poly.coeffs
  let odd := (odds poly.coeffs).map (fun o => feMul o beta)
  let coeffs ← optionList (List.zipWith (fun e o => feAdd e o) even odd)
  some { coeffs := coeffs }

/-- The serde_json encoding of one Vec of bytes: a JSON array of decimal
numbers with no spaces, e.g. the list 1, 2 becomes the five characters
left bracket, 1, comma, 2, right bracket. -/
def jsonOfBytes (bs : List Nat) : String :=
  "[" ++ String.intercalate "," (bs.map (fun b => toString (b % 256))) ++ "]"

/-- The serde_json encoding of the whole object log: a JSON array of the
per-object arrays, order preserving. -/
def serializeObjects (objs : List (List Nat)) : String :=
  "[" ++ String.intercalate "," (objs.map jsonOfBytes) ++ "]"

/-- ProofStream from prover.rs: an append-only log of byte objects plus a
read cursor (only ever 0-initialized and incremented, hence Nat). -/
structure ProofStream where
  objects : List (List Nat)
  read_index : Nat
deriving DecidableEq

/-- ProofStream::new. -/
def ProofStream.new : ProofStream := { objects := [], read_index := 0 }

/-- ProofStream::push appends one object to the log. -/
def ProofStream.push (ps : ProofStream) (object : List Nat) : ProofStream :=
  { ps with objects := ps.objects ++ [object] }

/-- ProofStream::pull: read the object at the cursor and advance it; the
source asserts the cursor is in range, hence Option. -/
def ProofStream.pull (ps : ProofStream) : Option (List Nat × ProofStream) := do
  let obj ← ps.objects[ps.read_index]?
  some (obj, { ps with read_index := ps.read_index + 1 })

/-- ProofStream::serialize: the JSON string of the whole object log. -/
def ProofStream.serialize (ps : ProofStream) : String :=
  serializeObjects ps.objects

/-- ProofStream::prover_fiat_shamir: hash the serialization of the ENTIRE
log and turn the digest into a field element with from_bytes. The SHA-256
function is the sha parameter (string hashed to a digest byte list). -/
def ProofStream.prover_fiat_shamir (sha : String → List Nat) (ps : ProofStream) (field : Field) : Option FieldElement :=
  FieldElement.from_bytes (sha ps.serialize) field

/-- The string ProofStream::verifier_fiat_shamir hashes: the JSON of the ONE
object sitting at the read cursor (an unread object, not the revealed
prefix); indexing past the end panics, hence Option. -/
def ProofStream.verifier_hash_input (ps : ProofStream) : Option String :=
  (ps.objects[ps.read_index]?).map jsonOfBytes

/-- ProofStream::verifier_fiat_shamir: hash the single object at the read
cursor and turn the digest into a field element with from_bytes. It takes the
stream immutably: the cursor is NOT advanced. -/
def ProofStream.verifier_fiat_shamir (sha : String → List Nat) (ps : ProofStream) (field : Field) : Option FieldElement := do
  let s ← ps.verifier_hash_input
  FieldElement.from_bytes (sha s) field

/-- The byte list i128::to_be_bytes produces: 16 big-endian bytes of the
two's-complement pattern. -/
def i128_to_be_bytes (n : Int) : List Nat :=
  let u := (n.emod (2 ^ 128)).toNat
  (List.range 16).map (fun j => u / 2 ^ (8 * (15 - j)) % 256)

/-- FriLayer from fri.rs. The Merkle tree is the external collaborator; the
layer keeps the root digest the tree would report, built by the mkRoot
parameter from the evaluations. -/
structure FriLayer where
  polynomial : Polynomial
  root : List Nat
  domain : List FieldElement
deriving DecidableEq

/-- FriLayer::new: evaluate the polynomial over the domain (possible panic on
mismatched fields, hence Option) and commit to the evaluations. -/
def FriLayer.new (mkRoot : List FieldElement → List Nat) (poly : Polynomial) (domain : List FieldElement) : Option FriLayer :=
  (poly.evaluate_domain domain).map (fun ev => { polynomial := poly, root := mkRoot ev, domain := domain })

/-- The body of the for loop of fri_commit, iterated over the index list
1, ..., number_layers - 1. State: current polynomial, layer list, stream. -/
def commitLoop (sha : String → List Nat) (mkRoot : List FieldElement → List Nat) (field : Field)
    (domain : List FieldElement) :
    List Nat → Polynomial × List FriLayer × ProofStream → Option (Polynomial × List FriLayer × ProofStream)
  | [], st => some st
  | i :: rest, (current_poly, layers, ts) => do
    let alpha ← ts.prover_fiat_shamir sha field
    let new_domain ← domain[i]?
    let poly' ← fold_polynomial current_poly alpha
    let layer ← FriLayer.new mkRoot poly' [new_domain]
    commitLoop sha mkRoot field domain rest (poly', layers ++ [layer], ts.push layer.root)

/-- fri_commit up to and including the last fold: field of the first
coefficient (panic when empty), layer 0 commitment and push, the interactive
rounds, and the final challenge and fold. Returns the field, the polynomial
obtained from the LAST fold, the layer list, and the stream before the final
push. -/
def fri_commit_core (sha : String → List Nat) (mkRoot : List FieldElement → List Nat)
    (number_layers : Nat) (p_0 : Polynomial) (transcript : ProofStream) (domain : List FieldElement) :
    Option (Field × Polynomial × List FriLayer × ProofStream) := do
  let c0 ← p_0.coeffs[0]?
  let field := c0.field
  let layer0 ← FriLayer.new mkRoot p_0 domain
  let ts := transcript.push layer0.root
  let (current_poly, layers, ts') ← commitLoop sha mkRoot field domain (List.range' 1 (number_layers - 1)) (p_0, [layer0], ts)
  let alpha ← ts'.prover_fiat_shamir sha field
  let last_poly ← fold_polynomial current_poly alpha
  some (field, last_poly, layers, ts')

/-- fri_commit from fri.rs: run the rounds, read the first coefficient of the
last fold (or zero when it is empty), push its 16-byte big-endian encoding as
the final transcript object, and return it with the layers. -/
def fri_commit (sha : String → List Nat) (mkRoot : List FieldElement → List Nat)
    (number_layers : Nat) (p_0 : Polynomial) (transcript : ProofStream) (domain : List FieldElement) :
    Option (FieldElement × List FriLayer × ProofStream) := do
  let (field, last_poly, layers, ts) ← fri_commit_core sha mkRoot number_layers p_0 transcript domain
  let zero := FieldElement.new 0 field
  let last_value := last_poly.coeffs.head?.getD zero
  some (last_value, layers, ts.push (i128_to_be_bytes last_value.num))

/-- FriDecommitment from fri.rs; the Merkle proof type is the parameter Pf,
and a missing proof is the None the query phase can produce. -/
structure FriDecommitment (Pf : Type) where
  layers_auth_paths_sym : List (Option Pf)
  layers_evaluations_sym : List FieldElement
  layers_auth_paths : List (Option Pf)
  layers_evaluations : List FieldElement

/-- fold_polynomial_evaluation from fri.rs: the fold consistency value
(eval + eval_sym) * two.inverse() + alpha * (eval - eval_sym) * two.inverse()
with two = FieldElement::new(2, eval.field) and the operator impls (checked
addition, unchecked subtraction and multiplication). -/
def fold_polynomial_evaluation (eval eval_sym alpha : FieldElement) : Option FieldElement := do
  let two := FieldElement.new 2 eval.field
  let s ← feAdd eval eval_sym
  let d := feSub eval eval_sym
  feAdd (feMul s two.inverse) (feMul (feMul alpha d) two.inverse)

/-- The inner for loop of verify_fri for one decommitment: walk the layers
with their index, extract the four per-layer entries (indexing panics when
the decommitment lists are short, hence Option), validate both Merkle proofs
against the layer root with the validate parameter, and for every layer but
the last recompute the folded value with a verifier_fiat_shamir challenge and
compare it (with the num-only equality) to the next stored evaluation. -/
def verifyDecAux {Pf : Type} (sha : String → List Nat) (validate : Pf → List Nat → Bool)
    (all : List FriLayer) (dec : FriDecommitment Pf) (ts : ProofStream) :
    List FriLayer → Nat → Option Bool
  | [], _ => some true
  | layer :: rest, i => do
    let eval ← dec.layers_evaluations[i]?
    let eval_sym ← dec.layers_evaluations_sym[i]?
    let auth_path ← dec.layers_auth_paths[i]?
    let auth_path_sym ← dec.layers_auth_paths_sym[i]?
    let eval_proof_valid := match auth_path with
      | some proof => validate proof layer.root
      | none => false
    let eval_sym_proof_valid := match auth_path_sym with
      | some proof => validate proof layer.root
      | none => false
    if !eval_proof_valid || !eval_sym_proof_valid then some false
    else if i < all.length - 1 then do
      let alpha ← ts.verifier_fiat_shamir sha eval.field
      let folded_value ← fold_polynomial_evaluation eval eval_sym alpha
      let next_eval ← dec.layers_evaluations[i + 1]?
      if !(feEq folded_value next_eval) then some false
      else verifyDecAux sha validate all dec ts rest (i + 1)
    else verifyDecAux sha validate all dec ts rest (i + 1)

/-- The outer for loop of verify_fri: any inner false is returned from the
whole function. -/
def verifyAllDecs {Pf : Type} (sha : String → List Nat) (validate : Pf → List Nat → Bool)
    (fri_layers : List FriLayer) (ts : ProofStream) : List (FriDecommitment Pf) → Option Bool
  | [] => some true
  | dec :: rest => do
    let r ← verifyDecAux sha validate fri_layers dec ts fri_layers 0
    if r then verifyAllDecs sha validate fri_layers ts rest else some false

/-- verify_fri from fri.rs. -/
def verify_fri {Pf : Type} (sha : String → List Nat) (validate : Pf → List Nat → Bool)
    (fri_layers : List FriLayer) (decommitments : List (FriDecommitment Pf))
    (transcript : ProofStream) : Option Bool :=
  verifyAllDecs sha validate fri_layers transcript decommitments

/-- Spec-side sampling, for comparison with the code (Modelled from the
spec): interpret the ENTIRE byte sequence big-endian as an unsigned integer
and reduce it modulo the field prime. -/
def specSampleBE (bytes : List Nat) (field : Field) : FieldElement :=
  { num := (beNat bytes : Int).emod field.prime, field := field }

/-! Helper lemmas about the embedded operations. -/

theorem tmod_neg_left (a b : Int) : (-a).tmod b = -(a.tmod b) := by
  rw [Int.tmod_def, Int.tmod_def, Int.neg_tdiv]
  ring

theorem neg_lt_tmod (a : Int) {b : Int} (hb : 0 < b) : -b < a.tmod b := by
  rcases le_or_lt 0 a with ha | ha
  · exact lt_of_lt_of_le (by omega) (Int.tmod_nonneg b ha)
  · have h1 : a.tmod b = -((-a).tmod b) := by rw [tmod_neg_left a b]; ring
    have h2 : (-a).tmod b < b := Int.tmod_lt_of_pos (-a) hb
    omega

theorem modulo_eq_emod (a : Int) {b : Int} (hb : 0 < b) : modulo a b = a.emod b := by
  have h0 : -b < a.tmod b := neg_lt_tmod a hb
  have h1 : (0 : Int) ≤ a.tmod b + b := by omega
  have h2 : (a.tmod b + b).tmod b = (a.tmod b + b) % b :=
    Int.tmod_eq_emod h1 (le_of_lt hb)
  have h3 : (a.tmod b + b) % b = a.tmod b % b := by
    have h := Int.add_mul_emod_self_left (a.tmod b) b 1
    rw [mul_one] at h
    exact h
  have h4 : a.tmod b % b = a % b := by
    rw [Int.tmod_def]
    have h := Int.add_mul_emod_self_left a b (-(a.tdiv b))
    rw [mul_neg, ← sub_eq_add_neg] at h
    exact h
  rw [modulo, h2, h3, h4]
  rfl

theorem modulo_nonneg (a : Int) {b : Int} (hb : 0 < b) : 0 ≤ modulo a b := by
  rw [modulo_eq_emod a hb]
  exact Int.emod_nonneg a (by omega)

theorem modulo_lt (a : Int) {b : Int} (hb : 0 < b) : modulo a b < b := by
  rw [modulo_eq_emod a hb]
  exact Int.emod_lt_of_pos a hb

theorem optionList_length {α : Type} : ∀ {l : List (Option α)} {l' : List α},
    optionList l = some l' → l'.length = l.length := by
  intro l
  induction l with
  | nil => intro l' h; simp only [optionList, Option.some.injEq] at h; simp [← h]
  | cons o os ih =>
    intro l' h
    cases o with
    | none => simp [optionList] at h
    | some a =>
      simp only [optionList, Option.bind_eq_bind, Option.some_bind, Option.bind_eq_some,
        Option.some.injEq] at h
      obtain ⟨as, has, rfl⟩ := h
      simp [ih has]

theorem evens_length {α : Type} : ∀ l : List α, (evens l).length = (l.length + 1) / 2
  | [] => by simp [evens]
  | [_] => by norm_num [evens]
  | _ :: _ :: rest => by
    simp only [evens, List.length_cons, evens_length rest]
    omega

theorem odds_length {α : Type} : ∀ l : List α, (odds l).length = l.length / 2
  | [] => by simp [odds]
  | [_] => by norm_num [odds]
  | _ :: _ :: rest => by
    simp only [odds, List.length_cons, odds_length rest]
    omega

theorem evens_subset {α : Type} : ∀ {l : List α} {a : α}, a ∈ evens l → a ∈ l
  | [], _, h => by simp [evens] at h
  | [_], _, h => by simpa [evens] using h
  | x :: y :: rest, a, h => by
    simp only [evens, List.mem_cons] at h
    rcases h with h | h
    · simp [h]
    · have := evens_subset h
      simp [this]

theorem odds_subset {α : Type} : ∀ {l : List α} {a : α}, a ∈ odds l → a ∈ l
  | [], _, h => by simp [odds] at h
  | [_], _, h => by simp [odds] at h
  | x :: y :: rest, a, h => by
    simp only [odds, List.mem_cons] at h
    rcases h with h | h
    · simp [h]
    · have := odds_subset h
      simp [this]

theorem zipWith_congr_mem {α β γ : Type} {f g : α → β → γ} :
    ∀ (xs : List α) (ys : List β), (∀ x ∈ xs, ∀ y ∈ ys, f x y = g x y) →
      List.zipWith f xs ys = List.zipWith g xs ys
  | [], _, _ => by simp
  | _ :: _, [], _ => by simp
  | x :: xs, y :: ys, h => by
    simp only [List.zipWith_cons_cons]
    rw [h x (by simp) y (by simp),
      zipWith_congr_mem xs ys (fun a ha b hb => h a (by simp [ha]) b (by simp [hb]))]

theorem zipWith_take_left {α β γ : Type} {f : α → β → γ} :
    ∀ (ys : List β) (xs : List α) (n : Nat), ys.length ≤ n →
      List.zipWith f (xs.take n) ys = List.zipWith f xs ys
  | [], xs, n, _ => by simp
  | _ :: _, [], n, _ => by simp
  | y :: ys, x :: xs, n + 1, h => by
    simp only [List.take_succ_cons, List.zipWith_cons_cons]
    rw [zipWith_take_left ys xs n (by simpa using h)]

theorem evens_take {α : Type} : ∀ (k : Nat) (l : List α),
    evens (l.take (2 * k)) = (evens l).take k
  | 0, l => by simp [evens]
  | k + 1, [] => by simp [evens]
  | k + 1, [a] => by
    have h2 : 2 * (k + 1) = 2 * k + 2 := by ring
    simp [h2, evens]
  | k + 1, a :: b :: rest => by
    have h2 : 2 * (k + 1) = 2 * k + 1 + 1 := by ring
    simp only [h2, List.take_succ_cons, evens, List.take_succ_cons]
    exact congrArg (fun t => a :: t) (evens_take k rest)

theorem odds_take {α : Type} : ∀ (k : Nat) (l : List α),
    odds (l.take (2 * k)) = (odds l).take k
  | 0, l => by simp [odds]
  | k + 1, [] => by simp [odds]
  | k + 1, [a] => by
    have h2 : 2 * (k + 1) = 2 * k + 2 := by ring
    simp [h2, odds]
  | k + 1, a :: b :: rest => by
    have h2 : 2 * (k + 1) = 2 * k + 1 + 1 := by ring
    simp only [h2, List.take_succ_cons, odds, List.take_succ_cons]
    exact congrArg (fun t => b :: t) (odds_take k rest)

theorem optionList_zipWith_feAdd {fl : Field} :
    ∀ (xs ys : List FieldElement), (∀ x ∈ xs, x.field = fl) → (∀ y ∈ ys, y.field = fl) →
      optionList (List.zipWith (fun e o => feAdd e o) xs ys) =
        some (List.zipWith (fun e o => fl.add e o) xs ys)
  | [], _, _, _ => by simp [optionList]
  | _ :: _, [], _, _ => by simp [optionList]
  | x :: xs, y :: ys, hx, hy => by
    have hxf : x.field = fl := hx x (by simp)
    have hyf : y.field = fl := hy y (by simp)
    have hadd : feAdd x y = some (fl.add x y) := by
      rw [feAdd, if_pos (by rw [hxf, hyf])]
      rw [Field.add, hxf]
    simp only [List.zipWith_cons_cons, optionList, hadd, Option.bind_eq_bind, Option.some_bind]
    rw [optionList_zipWith_feAdd xs ys (fun a ha => hx a (by simp [ha]))
      (fun b hb => hy b (by simp [hb]))]
    rfl

theorem fold_eq_of_same_field {p : Polynomial} (beta : FieldElement) {fl : Field}
    (h : ∀ c ∈ p.coeffs, c.field = fl) :
    fold_polynomial p beta =
      some (Polynomial.mk (List.zipWith (fun e o => fl.add e (fl.multiply o beta))
        (evens p.coeffs) (odds p.coeffs))) := by
  have hx : ∀ x ∈ evens p.coeffs, x.field = fl := fun x hx => h x (evens_subset hx)
  have hy : ∀ y ∈ (odds p.coeffs).map (fun o => feMul o beta), y.field = fl := by
    intro y hy
    simp only [List.mem_map] at hy
    obtain ⟨o, ho, rfl⟩ := hy
    have : o.field = fl := h o (odds_subset ho)
    simp [feMul, Field.multiply, this]
  rw [fold_polynomial, optionList_zipWith_feAdd _ _ hx hy]
  simp only [Option.bind_eq_bind, Option.some_bind, Option.some.injEq, Polynomial.mk.injEq]
  rw [List.zipWith_map_right]
  refine zipWith_congr_mem _ _ ?_
  intro x _ o ho
  have : o.field = fl := h o (odds_subset ho)
  rw [feMul, this]

theorem fold_length {p : Polynomial} {beta : FieldElement} {q : Polynomial}
    (h : fold_polynomial p beta = some q) : q.coeffs.length = p.coeffs.length / 2 := by
  simp only [fold_polynomial, Option.bind_eq_bind, Option.bind_eq_some,
    Option.some.injEq] at h
  obtain ⟨coeffs, hc, rfl⟩ := h
  have hl := optionList_length hc
  simp only [List.length_zipWith, List.length_map, evens_length, odds_length] at hl
  simp only [hl]
  omega

theorem commitLoop_length {sha : String → List Nat} {mkRoot : List FieldElement → List Nat}
    {field : Field} {domain : List FieldElement} :
    ∀ (js : List Nat) (st : Polynomial × List FriLayer × ProofStream)
      (st' : Polynomial × List FriLayer × ProofStream),
      commitLoop sha mkRoot field domain js st = some st' →
      st'.1.coeffs.length = st.1.coeffs.length / 2 ^ js.length
  | [], st, st', h => by
    simp only [commitLoop, Option.some.injEq] at h
    simp [← h]
  | j :: rest, (current_poly, layers, ts), st', h => by
    simp only [commitLoop, Option.bind_eq_bind, Option.bind_eq_some] at h
    obtain ⟨alpha, _, nd, _, poly', hfold, layer, _, hrec⟩ := h
    have h1 := commitLoop_length rest _ _ hrec
    have h2 := fold_length hfold
    simp only [h1, h2, List.length_cons]
    rw [Nat.div_div_eq_div_mul]
    ring_nf

theorem verifyDecAux_fold_sound {Pf : Type} (sha : String → List Nat) (validate : Pf → List Nat → Bool)
    (all : List FriLayer) (dec : FriDecommitment Pf) (ts : ProofStream) :
    ∀ (rest : List FriLayer) (i : Nat),
      verifyDecAux sha validate all dec ts rest i = some true →
      ∀ j, i ≤ j → j < i + rest.length → j < all.length - 1 →
        ∃ e es alpha folded next,
          dec.layers_evaluations[j]? = some e ∧
          dec.layers_evaluations_sym[j]? = some es ∧
          ts.verifier_fiat_shamir sha e.field = some alpha ∧
          fold_polynomial_evaluation e es alpha = some folded ∧
          dec.layers_evaluations[j + 1]? = some next ∧
          feEq folded next = true := by
  intro rest
  induction rest with
  | nil =>
    intro i h j hij hjr hjl
    simp only [List.length_nil, Nat.add_zero] at hjr
    omega
  | cons layer rest ih =>
    intro i h j hij hjr hjl
    simp only [verifyDecAux, Option.bind_eq_bind, Option.bind_eq_some] at h
    obtain ⟨eval, heval, eval_sym, hsym, ap, hap, aps, haps, h⟩ := h
    by_cases hc : i < all.length - 1
    · rw [if_pos hc] at h
      split at h
      · exact absurd h (by simp)
      · simp only [Option.bind_eq_some] at h
        obtain ⟨alpha, halpha, folded, hfolded, next, hnext, h⟩ := h
        split at h
        · exact absurd h (by simp)
        · rename_i hfe
          rcases Nat.eq_or_lt_of_le hij with rfl | hlt
          · exact ⟨eval, eval_sym, alpha, folded, next, heval, hsym, halpha, hfolded,
              hnext, by simpa using hfe⟩
          · exact ih (i + 1) h j hlt (by simp only [List.length_cons] at hjr; omega) hjl
    · rw [if_neg hc] at h
      split at h
      · exact absurd h (by simp)
      · rcases Nat.eq_or_lt_of_le hij with rfl | hlt
        · omega
        · exact ih (i + 1) h j hlt (by simp only [List.length_cons] at hjr; omega) hjl

theorem verifyAllDecs_fold_sound {Pf : Type} (sha : String → List Nat) (validate : Pf → List Nat → Bool)
    (fri_layers : List FriLayer) (ts : ProofStream) :
    ∀ (decs : List (FriDecommitment Pf)),
      verifyAllDecs sha validate fri_layers ts decs = some true →
      ∀ dec ∈ decs, verifyDecAux sha validate fri_layers dec ts fri_layers 0 = some true := by
  intro decs
  induction decs with
  | nil => intro _ dec hdec; simp at hdec
  | cons d ds ih =>
    intro h dec hdec
    simp only [verifyAllDecs, Option.bind_eq_bind, Option.bind_eq_some] at h
    obtain ⟨r, hr, h⟩ := h
    have hrt : r = true := by
      by_contra hf
      simp only [Bool.not_eq_true] at hf
      rw [hf] at h
      simp at h
    rw [hrt] at hr h
    simp only [if_true] at h
    rcases List.mem_cons.mp hdec with rfl | hmem
    · exact hr
    · exact ih h dec hmem

/-! The claims. -/

/-- C1: the claim says divide and inverse obtain the multiplicative inverse as
a Bezout coefficient of the extended Euclidean algorithm, giving
(x * y) / y = x for y nonzero and x * inverse(x) = one() for x nonzero. The
code instead binds the FIRST component of the returned triple - which is the
gcd, equal to one in a prime field - so divide returns its left operand and
inverse returns one: in F_97, (2 * 7) / 7 = 14 and 3 * inverse(3) = 3, not
one. The addition and subtraction part of the claim does hold. -/
theorem C1_divide_and_inverse_return_gcd_not_bezout :
    extended_euclidean_algorithm 7 97 = (1, 14, -1) ∧
    feDiv (feMul { num := 2, field := { prime := 97 } } { num := 7, field := { prime := 97 } })
        { num := 7, field := { prime := 97 } } =
      some { num := 14, field := { prime := 97 } } ∧
    (14 : Int) ≠ 2 ∧
    FieldElement.inverse { num := 3, field := { prime := 97 } } =
      { num := 1, field := { prime := 97 } } ∧
    feMul { num := 3, field := { prime := 97 } }
        (FieldElement.inverse { num := 3, field := { prime := 97 } }) =
      { num := 3, field := { prime := 97 } } ∧
    feEq (feMul { num := 3, field := { prime := 97 } }
        (FieldElement.inverse { num := 3, field := { prime := 97 } }))
      (Field.one { prime := 97 }) = false ∧
    (∃ z, feAdd { num := 2, field := { prime := 97 } } { num := 7, field := { prime := 97 } } =
        some z ∧
      feSub z { num := 7, field := { prime := 97 } } = { num := 2, field := { prime := 97 } }) := by
  refine ⟨by decide, by decide, by decide, by decide, by decide, by decide, ?_⟩
  exact ⟨{ num := 9, field := { prime := 97 } }, by decide, by decide⟩

/-- C2: the claim says verifier_fiat_shamir hashes the serialized log up to
the read cursor (the first k objects) and so matches the prover challenge on
a k-push transcript. The code hashes the JSON of the SINGLE object sitting AT
the cursor: on the transcript with objects [1] and [2] and cursor 1, it
hashes the three characters of the JSON of [2] - an object the verifier has
not yet read - while the revealed prefix serializes to the five characters of
the JSON of the list holding [1], which is also exactly what the prover would
hash after one push. The hashed byte strings differ, so the derived
challenges are not synchronized. -/
theorem C2_verifier_challenge_hashes_single_unread_object :
    ProofStream.verifier_hash_input { objects := [[1], [2]], read_index := 1 } = some "[2]" ∧
    serializeObjects [[1]] = "[[1]]" ∧
    ProofStream.serialize { objects := [[1]], read_index := 0 } = "[[1]]" ∧
    ("[2]" : String) ≠ "[[1]]" := by
  refine ⟨by decide, by decide, by decide, by decide⟩

/-- C6: the claim says all four binary operations fail with a field mismatch
when the operands have different prime moduli. Only the Add impl checks; Sub,
Mul and Div silently compute with the LEFT operand's modulus: multiplying the
element 2 of F_7 with the element 5 of F_97 returns 3 in F_7 instead of
failing, and similarly for subtraction and division. -/
theorem C6_mixed_moduli_ops_return_results :
    feMul { num := 2, field := { prime := 7 } } { num := 5, field := { prime := 97 } } =
      { num := 3, field := { prime := 7 } } ∧
    feSub { num := 2, field := { prime := 7 } } { num := 5, field := { prime := 97 } } =
      { num := 4, field := { prime := 7 } } ∧
    feDiv { num := 2, field := { prime := 7 } } { num := 5, field := { prime := 97 } } =
      some { num := 2, field := { prime := 7 } } := by
  refine ⟨by decide, by decide, by decide⟩

/-- C6 amended: only addition checks that the two operands share a modulus
and fails on mismatch; subtraction, multiplication and division perform no
check and return a result computed with the left operand's modulus (division
failing only on a zero divisor); on matching moduli all operations return
results. -/
theorem C6_amended_only_add_checks_moduli :
    ∀ a b : FieldElement,
      (a.field.prime ≠ b.field.prime → feAdd a b = none) ∧
      (a.field.prime = b.field.prime → ∃ c, feAdd a b = some c ∧ c.field = a.field) ∧
      (feMul a b).field = a.field ∧
      (feSub a b).field = a.field ∧
      (b.num ≠ 0 → ∃ c, feDiv a b = some c ∧ c.field = a.field) ∧
      (b.num = 0 → feDiv a b = none) := by
  intro a b
  refine ⟨fun h => by simp [feAdd, h],
    fun h => ⟨{ num := modulo (a.num + b.num) a.field.prime, field := a.field },
      by rw [feAdd, if_pos h], rfl⟩,
    rfl, rfl,
    fun h => ⟨FieldElement.mk
      (modulo (a.num * (extended_euclidean_algorithm b.num a.field.prime).1) a.field.prime)
      a.field, by rw [feDiv, Field.divide, if_neg h], rfl⟩,
    fun h => by simp [feDiv, Field.divide, h]⟩

/-- C6 witness: the amended statement applied to the mixed pair 2 in F_7 and
5 in F_97 and to the matching pair 3 and 4 in F_97. -/
theorem C6_amended_witness :
    (({ prime := 7 } : Field).prime ≠ ({ prime := 97 } : Field).prime) ∧
    feAdd { num := 2, field := { prime := 7 } } { num := 5, field := { prime := 97 } } = none ∧
    (∃ c, feAdd { num := 3, field := { prime := 97 } } { num := 4, field := { prime := 97 } } =
      some c ∧ c.field = ({ num := 3, field := { prime := 97 } } : FieldElement).field) ∧
    (∃ c, feDiv { num := 2, field := { prime := 7 } } { num := 5, field := { prime := 97 } } =
      some c ∧ c.field = ({ num := 2, field := { prime := 7 } } : FieldElement).field) := by
  have h1 := C6_amended_only_add_checks_moduli
    { num := 2, field := { prime := 7 } } { num := 5, field := { prime := 97 } }
  have h2 := C6_amended_only_add_checks_moduli
    { num := 3, field := { prime := 97 } } { num := 4, field := { prime := 97 } }
  exact ⟨by decide, h1.1 (by decide), h2.2.1 (by decide), h1.2.2.2.2.1 (by decide)⟩

/-- C7: the claim says element equality compares both the numeric value and
the modulus, so elements of different fields never compare equal. The
PartialEq impl compares only the numeric values: 5 in F_7 and 5 in F_97
compare equal even though the fields differ. -/
theorem C7_eq_ignores_modulus :
    feEq { num := 5, field := { prime := 7 } } { num := 5, field := { prime := 97 } } = true ∧
    ({ prime := 7 } : Field) ≠ ({ prime := 97 } : Field) := by
  refine ⟨by decide, by decide⟩

/-- C7 amended: element equality compares only the numeric values; two
elements are equal exactly when their values agree, whatever their fields. -/
theorem C7_amended_eq_compares_only_num :
    ∀ a b : FieldElement, feEq a b = true ↔ a.num = b.num := by
  intro a b
  simp [feEq]

/-- C8: the claim says the digest-to-challenge conversion reads the ENTIRE
byte sequence big-endian as an unsigned integer before reducing mod p.
from_bytes - the function prover_fiat_shamir applies to SHA-256 digests -
reads only the FIRST 8 bytes, and as a two's-complement signed 64-bit
integer: two 32-byte sequences that differ only after byte 8 give the same
element although their unsigned values differ mod 97, and a leading byte 128
is treated as a negative number (result 18 in F_97) where the unsigned
reading of the whole sequence gives 79. -/
theorem C8_from_bytes_not_whole_unsigned :
    FieldElement.from_bytes (List.replicate 32 0) { prime := 97 } =
      FieldElement.from_bytes (List.replicate 31 0 ++ [1]) { prime := 97 } ∧
    specSampleBE (List.replicate 32 0) { prime := 97 } ≠
      specSampleBE (List.replicate 31 0 ++ [1]) { prime := 97 } ∧
    FieldElement.from_bytes (128 :: List.replicate 31 0) { prime := 97 } =
      some { num := 18, field := { prime := 97 } } ∧
    specSampleBE (128 :: List.replicate 31 0) { prime := 97 } =
      { num := 79, field := { prime := 97 } } ∧
    (18 : Int) ≠ 79 := by
  refine ⟨by decide, by decide, by decide, by decide, by decide⟩

/-- C8 amended: from_bytes reads only the first 8 bytes of the sequence as a
big-endian two's-complement signed 64-bit integer and reduces it with modulo;
for a positive prime the result lies in the interval from 0 inclusive to the
prime exclusive, and the bytes beyond the eighth never influence it. -/
theorem C8_amended_from_bytes_first8_signed :
    ∀ (bytes : List Nat) (field : Field), 8 ≤ bytes.length → 0 < field.prime →
      ∃ x, FieldElement.from_bytes bytes field = some x ∧
        x.num = modulo (toSigned64 (beNat (bytes.take 8))) field.prime ∧
        0 ≤ x.num ∧ x.num < field.prime ∧
        FieldElement.from_bytes (bytes.take 8) field = some x := by
  intro bytes field hlen hp
  refine ⟨_, by rw [FieldElement.from_bytes, if_pos hlen], rfl,
    modulo_nonneg _ hp, modulo_lt _ hp, ?_⟩
  have hlen8 : (bytes.take 8).length = 8 := by
    rw [List.length_take]
    omega
  rw [FieldElement.from_bytes, if_pos (by omega), List.take_take]
  simp

/-- C8 witness: the amended statement applied to the 32-byte zero digest over
F_97. -/
theorem C8_amended_witness :
    (8 ≤ (List.replicate 32 0).length ∧ (0 : Int) < ({ prime := 97 } : Field).prime) ∧
    (∃ x, FieldElement.from_bytes (List.replicate 32 0) { prime := 97 } = some x ∧
      x.num = modulo (toSigned64 (beNat ((List.replicate 32 0).take 8))) 97 ∧
      0 ≤ x.num ∧ x.num < (97 : Int) ∧
      FieldElement.from_bytes ((List.replicate 32 0).take 8) { prime := 97 } = some x) := by
  exact ⟨⟨by decide, by decide⟩,
    C8_amended_from_bytes_first8_signed (List.replicate 32 0) { prime := 97 }
      (by decide) (by decide)⟩

/-- C9: verify_fri with an empty decommitment list returns true for every
layer list and every transcript, without any Merkle or folding check: the
outer loop over decommitments never runs. -/
theorem C9_verify_empty_decommitments_accepts :
    ∀ (Pf : Type) (sha : String → List Nat) (validate : Pf → List Nat → Bool)
      (layers : List FriLayer) (ts : ProofStream),
      verify_fri sha validate layers ([] : List (FriDecommitment Pf)) ts = some true := by
  intro Pf sha validate layers ts
  rfl

/-- C3: whenever verify_fri accepts, every decommitment satisfies, at every
layer except the last, the fold consistency identity: the value
(eval + eval_sym) * inverse(2) + challenge * (eval - eval_sym) * inverse(2)
computed by fold_polynomial_evaluation, with the challenge re-derived by the
verifier-side Fiat-Shamir function, equals (under the code's num-only
equality) the next layer's stored evaluation; contrapositively, any mismatch
makes verify_fri return something other than acceptance. -/
theorem C3_verify_checks_fold_consistency {Pf : Type} (sha : String → List Nat)
    (validate : Pf → List Nat → Bool) (layers : List FriLayer)
    (decs : List (FriDecommitment Pf)) (ts : ProofStream)
    (h : verify_fri sha validate layers decs ts = some true) :
    ∀ dec ∈ decs, ∀ j, j < layers.length - 1 →
      ∃ e es alpha folded next,
        dec.layers_evaluations[j]? = some e ∧
        dec.layers_evaluations_sym[j]? = some es ∧
        ts.verifier_fiat_shamir sha e.field = some alpha ∧
        fold_polynomial_evaluation e es alpha = some folded ∧
        dec.layers_evaluations[j + 1]? = some next ∧
        feEq folded next = true := by
  intro dec hdec j hj
  have h0 := verifyAllDecs_fold_sound sha validate layers ts decs h dec hdec
  exact verifyDecAux_fold_sound sha validate layers dec ts layers 0 h0 j (Nat.zero_le j)
    (by omega) hj

/-- C3 witness: a two-layer accepting run with one decommitment (evaluations
3 and 3 folding to 6 under the zero challenge of the all-zero digest), at
which the consistency identity is produced for layer 0. -/
theorem C3_witness :
    verify_fri (fun _ => List.replicate 32 0) (fun (_ : Unit) (_ : List Nat) => true)
      [{ polynomial := { coeffs := [] }, root := [], domain := [] },
       { polynomial := { coeffs := [] }, root := [], domain := [] }]
      [{ layers_auth_paths_sym := [some (), some ()]
       , layers_evaluations_sym :=
          [{ num := 3, field := { prime := 97 } }, { num := 0, field := { prime := 97 } }]
       , layers_auth_paths := [some (), some ()]
       , layers_evaluations :=
          [{ num := 3, field := { prime := 97 } }, { num := 6, field := { prime := 97 } }] }]
      { objects := [[1]], read_index := 0 } = some true ∧
    (∃ e es alpha folded next,
      ({ layers_auth_paths_sym := [some (), some ()]
       , layers_evaluations_sym :=
          [{ num := 3, field := { prime := 97 } }, { num := 0, field := { prime := 97 } }]
       , layers_auth_paths := [some (), some ()]
       , layers_evaluations :=
          [{ num := 3, field := { prime := 97 } }, { num := 6, field := { prime := 97 } }] } :
        FriDecommitment Unit).layers_evaluations[0]? = some e ∧
      ({ layers_auth_paths_sym := [some (), some ()]
       , layers_evaluations_sym :=
          [{ num := 3, field := { prime := 97 } }, { num := 0, field := { prime := 97 } }]
       , layers_auth_paths := [some (), some ()]
       , layers_evaluations :=
          [{ num := 3, field := { prime := 97 } }, { num := 6, field := { prime := 97 } }] } :
        FriDecommitment Unit).layers_evaluations_sym[0]? = some es ∧
      ProofStream.verifier_fiat_shamir (fun _ => List.replicate 32 0)
        { objects := [[1]], read_index := 0 } e.field = some alpha ∧
      fold_polynomial_evaluation e es alpha = some folded ∧
      ({ layers_auth_paths_sym := [some (), some ()]
       , layers_evaluations_sym :=
          [{ num := 3, field := { prime := 97 } }, { num := 0, field := { prime := 97 } }]
       , layers_auth_paths := [some (), some ()]
       , layers_evaluations :=
          [{ num := 3, field := { prime := 97 } }, { num := 6, field := { prime := 97 } }] } :
        FriDecommitment Unit).layers_evaluations[0 + 1]? = some next ∧
      feEq folded next = true) := by
  have hv : verify_fri (fun _ => List.replicate 32 0) (fun (_ : Unit) (_ : List Nat) => true)
      [{ polynomial := { coeffs := [] }, root := [], domain := [] },
       { polynomial := { coeffs := [] }, root := [], domain := [] }]
      [{ layers_auth_paths_sym := [some (), some ()]
       , layers_evaluations_sym :=
          [{ num := 3, field := { prime := 97 } }, { num := 0, field := { prime := 97 } }]
       , layers_auth_paths := [some (), some ()]
       , layers_evaluations :=
          [{ num := 3, field := { prime := 97 } }, { num := 6, field := { prime := 97 } }] }]
      { objects := [[1]], read_index := 0 } = some true := by decide
  refine ⟨hv, ?_⟩
  exact C3_verify_checks_fold_consistency _ _ _ _ _ hv _ (by simp) 0 (by decide)

/-- C4: fold_polynomial splits the coefficients into the even- and odd-index
subsequences, multiplies each odd coefficient by beta, and combines them
pointwise into e + beta * o; a polynomial of 2k coefficients folds to exactly
k coefficients; and the concrete chain over F_97 starting from the
coefficients 19, 56, 34, 48, 43, 37, 10, 0 folds with beta 12, 32, 64 to the
coefficient lists 12, 28, 2, 10, then 35, 31, then 79. -/
theorem C4_fold_even_odd_split :
    (∀ (p : Polynomial) (beta : FieldElement) (fl : Field),
      (∀ c ∈ p.coeffs, c.field = fl) →
      fold_polynomial p beta =
        some (Polynomial.mk (List.zipWith (fun e o => fl.add e (fl.multiply o beta))
          (evens p.coeffs) (odds p.coeffs))) ∧
      (∀ k, p.coeffs.length = 2 * k →
        ∃ q, fold_polynomial p beta = some q ∧ q.coeffs.length = k)) ∧
    fold_polynomial (Polynomial.mk (([19, 56, 34, 48, 43, 37, 10, 0] : List Int).map
        (fun n => { num := n, field := { prime := 97 } })))
      { num := 12, field := { prime := 97 } } =
      some (Polynomial.mk (([12, 28, 2, 10] : List Int).map
        (fun n => { num := n, field := { prime := 97 } }))) ∧
    fold_polynomial (Polynomial.mk (([12, 28, 2, 10] : List Int).map
        (fun n => { num := n, field := { prime := 97 } })))
      { num := 32, field := { prime := 97 } } =
      some (Polynomial.mk (([35, 31] : List Int).map
        (fun n => { num := n, field := { prime := 97 } }))) ∧
    fold_polynomial (Polynomial.mk (([35, 31] : List Int).map
        (fun n => { num := n, field := { prime := 97 } })))
      { num := 64, field := { prime := 97 } } =
      some (Polynomial.mk (([79] : List Int).map
        (fun n => { num := n, field := { prime := 97 } }))) := by
  refine ⟨?_, by decide, by decide, by decide⟩
  intro p beta fl h
  refine ⟨fold_eq_of_same_field beta h, ?_⟩
  intro k hk
  refine ⟨_, fold_eq_of_same_field beta h, ?_⟩
  have hlen := fold_length (fold_eq_of_same_field beta h)
  simp only at hlen
  rw [hlen, hk]
  omega

/-- C4 witness: the general statement applied to the two-coefficient
polynomial with coefficients 1 and 2 over F_97 and beta 12, folding to one
coefficient. -/
theorem C4_witness :
    (∀ c ∈ (Polynomial.mk [{ num := 1, field := { prime := 97 } },
        { num := 2, field := { prime := 97 } }]).coeffs,
      c.field = ({ prime := 97 } : Field)) ∧
    (Polynomial.mk [{ num := 1, field := { prime := 97 } },
        { num := 2, field := { prime := 97 } }]).coeffs.length = 2 * 1 ∧
    (∃ q, fold_polynomial (Polynomial.mk [{ num := 1, field := { prime := 97 } },
        { num := 2, field := { prime := 97 } }]) { num := 12, field := { prime := 97 } } =
      some q ∧ q.coeffs.length = 1) := by
  refine ⟨by decide, by decide, ?_⟩
  exact (C4_fold_even_odd_split.1 (Polynomial.mk [{ num := 1, field := { prime := 97 } },
    { num := 2, field := { prime := 97 } }]) { num := 12, field := { prime := 97 } }
    { prime := 97 } (by decide)).2 1 (by decide)

/-- C10: fold_polynomial on an odd coefficient count 2k + 1 produces exactly
k coefficients: the zip of the k + 1 even-index coefficients with the k
odd-index ones stops at the shorter side, so the final even coefficient is
discarded and the fold of the first 2k coefficients gives the identical
polynomial. -/
theorem C10_fold_odd_length_drops_last :
    ∀ (p : Polynomial) (beta : FieldElement) (fl : Field) (k : Nat),
      (∀ c ∈ p.coeffs, c.field = fl) →
      p.coeffs.length = 2 * k + 1 →
      ∃ q, fold_polynomial p beta = some q ∧ q.coeffs.length = k ∧
        fold_polynomial (Polynomial.mk (p.coeffs.take (2 * k))) beta = some q := by
  intro p beta fl k h hlen
  refine ⟨_, fold_eq_of_same_field beta h, ?_, ?_⟩
  · have hl := fold_length (fold_eq_of_same_field beta h)
    simp only at hl
    rw [hl, hlen]
    omega
  · have h2 : ∀ c ∈ (Polynomial.mk (p.coeffs.take (2 * k))).coeffs, c.field = fl :=
      fun c hc => h c (List.take_subset _ _ hc)
    rw [fold_eq_of_same_field beta h2]
    simp only [Option.some.injEq, Polynomial.mk.injEq]
    have hodds : (odds p.coeffs).length = k := by
      rw [odds_length, hlen]
      omega
    rw [evens_take, odds_take, List.take_of_length_le (le_of_eq hodds),
      zipWith_take_left _ _ _ (le_of_eq hodds)]

/-- C5: a successful commit run with L layers on a polynomial of 2 to the L
coefficients (nonzero leading coefficient) folds down to exactly one
coefficient after the final fold; fri_commit returns that constant, and the
final transcript object is the constant's 16-byte big-endian encoding, not a
commitment root. -/
theorem C5_commit_final_constant (sha : String → List Nat) (mkRoot : List FieldElement → List Nat)
    (L : Nat) (p_0 : Polynomial) (ts0 : ProofStream) (domain : List FieldElement)
    (field : Field) (last_poly : Polynomial) (layers : List FriLayer) (ts1 : ProofStream)
    (hcore : fri_commit_core sha mkRoot L p_0 ts0 domain = some (field, last_poly, layers, ts1))
    (hlen : p_0.coeffs.length = 2 ^ L) (hL : 1 ≤ L)
    (_hlc : ∃ lc, p_0.coeffs.getLast? = some lc ∧ lc.num ≠ 0) :
    last_poly.coeffs.length = 1 ∧
    ∃ c, last_poly.coeffs = [c] ∧
      fri_commit sha mkRoot L p_0 ts0 domain =
        some (c, layers, ts1.push (i128_to_be_bytes c.num)) ∧
      (ts1.push (i128_to_be_bytes c.num)).objects.getLast? =
        some (i128_to_be_bytes c.num) := by
  have hcommit : fri_commit sha mkRoot L p_0 ts0 domain =
      some (last_poly.coeffs.head?.getD (FieldElement.new 0 field), layers,
        ts1.push (i128_to_be_bytes (last_poly.coeffs.head?.getD (FieldElement.new 0 field)).num)) := by
    rw [fri_commit, hcore]
    rfl
  have hones : last_poly.coeffs.length = 1 := by
    simp only [fri_commit_core, Option.bind_eq_bind, Option.bind_eq_some] at hcore
    obtain ⟨c0, hc0, layer0, hl0, st, hloop, alpha, halpha, lp, hfold, heq⟩ := hcore
    obtain ⟨cp, ls, ts'⟩ := st
    simp only [Option.some.injEq, Prod.mk.injEq] at heq
    obtain ⟨hfeq, hlpeq, hlseq, htseq⟩ := heq
    have h1 := commitLoop_length (List.range' 1 (L - 1)) (p_0, [layer0], ts0.push layer0.root) (cp, ls, ts') hloop
    simp only [List.length_range'] at h1
    have h2 := fold_length hfold
    have hcp : cp.coeffs.length = 2 := by
      rw [h1, hlen]
      rw [Nat.pow_div (by omega) (by omega)]
      have : L - (L - 1) = 1 := by omega
      rw [this]
    rw [← hlpeq, h2]
    show cp.coeffs.length / 2 = 1
    rw [hcp]
  obtain ⟨c, hc⟩ := List.length_eq_one.mp hones
  refine ⟨hones, c, hc, ?_, ?_⟩
  · rw [hcommit, hc]
    rfl
  · rw [ProofStream.push]
    exact List.getLast?_concat _

/-- C5 witness: a one-layer commit of the polynomial with coefficients 1 and
2 over F_97 under the constant hash and constant Merkle root: the last fold
is the constant 1 and the final transcript object is its 16-byte encoding. -/
theorem C5_witness :
    fri_commit_core (fun _ => List.replicate 32 0) (fun _ => [7]) 1
      (Polynomial.mk [{ num := 1, field := { prime := 97 } },
        { num := 2, field := { prime := 97 } }])
      ProofStream.new [{ num := 1, field := { prime := 97 } }] =
      some ({ prime := 97 }, Polynomial.mk [{ num := 1, field := { prime := 97 } }],
        [FriLayer.mk (Polynomial.mk [{ num := 1, field := { prime := 97 } },
            { num := 2, field := { prime := 97 } }]) [7] [{ num := 1, field := { prime := 97 } }]],
        { objects := [[7]], read_index := 0 }) ∧
    ((Polynomial.mk [({ num := 1, field := { prime := 97 } } : FieldElement)]).coeffs.length = 1 ∧
      ∃ c, (Polynomial.mk [({ num := 1, field := { prime := 97 } } : FieldElement)]).coeffs = [c] ∧
        fri_commit (fun _ => List.replicate 32 0) (fun _ => [7]) 1
          (Polynomial.mk [{ num := 1, field := { prime := 97 } },
            { num := 2, field := { prime := 97 } }])
          ProofStream.new [{ num := 1, field := { prime := 97 } }] =
          some (c, [FriLayer.mk (Polynomial.mk [{ num := 1, field := { prime := 97 } },
              { num := 2, field := { prime := 97 } }]) [7] [{ num := 1, field := { prime := 97 } }]],
            ProofStream.push { objects := [[7]], read_index := 0 } (i128_to_be_bytes c.num)) ∧
        (ProofStream.push { objects := [[7]], read_index := 0 }
          (i128_to_be_bytes c.num)).objects.getLast? = some (i128_to_be_bytes c.num)) := by
  have hcore : fri_commit_core (fun _ => List.replicate 32 0) (fun _ => [7]) 1
      (Polynomial.mk [{ num := 1, field := { prime := 97 } },
        { num := 2, field := { prime := 97 } }])
      ProofStream.new [{ num := 1, field := { prime := 97 } }] =
      some ({ prime := 97 }, Polynomial.mk [{ num := 1, field := { prime := 97 } }],
        [FriLayer.mk (Polynomial.mk [{ num := 1, field := { prime := 97 } },
            { num := 2, field := { prime := 97 } }]) [7] [{ num := 1, field := { prime := 97 } }]],
        { objects := [[7]], read_index := 0 }) := by decide
  refine ⟨hcore, ?_⟩
  exact C5_commit_final_constant _ _ 1 _ _ _ _ _ _ _ hcore (by decide) (by decide)
    ⟨{ num := 2, field := { prime := 97 } }, by decide, by decide⟩

/-- C10 witness: the statement applied to the three-coefficient polynomial
with coefficients 1, 2, 3 over F_97 and beta 5: the fold has one coefficient
and agrees with the fold of the first two coefficients. -/
theorem C10_witness :
    (∀ c ∈ (Polynomial.mk [{ num := 1, field := { prime := 97 } },
        { num := 2, field := { prime := 97 } }, { num := 3, field := { prime := 97 } }]).coeffs,
      c.field = ({ prime := 97 } : Field)) ∧
    (Polynomial.mk [{ num := 1, field := { prime := 97 } },
        { num := 2, field := { prime := 97 } },
        { num := 3, field := { prime := 97 } }]).coeffs.length = 2 * 1 + 1 ∧
    (∃ q, fold_polynomial (Polynomial.mk [{ num := 1, field := { prime := 97 } },
          { num := 2, field := { prime := 97 } }, { num := 3, field := { prime := 97 } }])
        { num := 5, field := { prime := 97 } } = some q ∧
      q.coeffs.length = 1 ∧
      fold_polynomial (Polynomial.mk ((Polynomial.mk [{ num := 1, field := { prime := 97 } },
          { num := 2, field := { prime := 97 } },
          { num := 3, field := { prime := 97 } }]).coeffs.take (2 * 1)))
        { num := 5, field := { prime := 97 } } = some q) := by
  refine ⟨by decide, by decide, ?_⟩
  exact C10_fold_odd_length_drops_last (Polynomial.mk [{ num := 1, field := { prime := 97 } },
    { num := 2, field := { prime := 97 } }, { num := 3, field := { prime := 97 } }])
    { num := 5, field := { prime := 97 } } { prime := 97 } 1 (by decide) (by decide)

end FriImpl
